import Mathlib

/-!
Shallow embedding of the ranktop video-processor overlay/composition core
(the `processVideos` cloud function: text segmentation, mixed-text
measurement and drawing, box fitting, overlay layout, and the two
composition plans), together with theorems settling the specification
claims about it.

Strings are modelled as `List Char` (JS `for (const c of s)` iterates code
points, which match `Char`). Pixel widths and times are `ℚ` (JS numbers in
the relevant code paths are exact decimals); vertical pixel positions are
`ℤ` (they arise from integer config values and integer font sizes, and JS
subtraction can go negative). The canvas glyph-metrics oracle
(`ctx.measureText` after `ctx.font = ...`) is a parameter
`o : Font → ℕ → List Char → ℚ`, and the `Extended_Pictographic` Unicode
property test is a parameter `isEmoji : Char → Bool`; everything else is
translated from the source.
-/

namespace RankTop

/-- Font classes produced by `getFontForChar`: the source returns one of the
strings `Emoji`, the configured CJK font name, or `CustomFont`. -/
inductive Font where
  | Emoji
  | Chinese
  | Custom
deriving DecidableEq, Repr

/-- One run of same-class text, as built by `segmentTextByFont`. -/
structure Segment where
  text : List Char
  font : Font
deriving DecidableEq, Repr

/-- Wide-script test from `getFontForChar`:
the regex character classes `[一-龥]`, `[぀-ヿ]`,
`[＀-￯]`. -/
def inWideRanges (c : Char) : Bool :=
  (0x4e00 ≤ c.toNat && c.toNat ≤ 0x9fa5) ||
  (0x3040 ≤ c.toNat && c.toNat ≤ 0x30ff) ||
  (0xff00 ≤ c.toNat && c.toNat ≤ 0xffef)

/-- `getFontForChar(char)`: Extended_Pictographic characters map to `Emoji`
(the property test is the `isEmoji` parameter), wide-script ranges to the
configured CJK font, everything else to `CustomFont`. -/
def getFontForChar (isEmoji : Char → Bool) (c : Char) : Font :=
  if isEmoji c then Font.Emoji
  else if inWideRanges c then Font.Chinese
  else Font.Custom

/-- Loop body of `segmentTextByFont`: `cur` is the mutable `currentSegment`.
The source starts with `{ text: '', font: '' }` and, on each character,
either seeds an empty current segment, extends it when the class matches,
or pushes it and starts a new one. -/
def segmentGo (isEmoji : Char → Bool) : Segment → List Char → List Segment
  | cur, [] => if cur.text.isEmpty then [] else [cur]
  | cur, c :: rest =>
    let f := getFontForChar isEmoji c
    if cur.text.isEmpty then
      segmentGo isEmoji ⟨[c], f⟩ rest
    else if cur.font = f then
      segmentGo isEmoji ⟨cur.text ++ [c], cur.font⟩ rest
    else
      cur :: segmentGo isEmoji ⟨[c], f⟩ rest

/-- `segmentTextByFont(text)`: split a string into maximal runs of one font
class. The source's initial `{ text: '', font: '' }` is modelled with an
arbitrary placeholder font, which is never consulted while the text is
empty. -/
def segmentTextByFont (isEmoji : Char → Bool) (text : List Char) : List Segment :=
  segmentGo isEmoji ⟨[], Font.Custom⟩ text

/-- Glyph-metrics oracle: the width `ctx.measureText(text).width` reports
after `ctx.font = "<size>px <font>"`. -/
abbrev MeasureOracle := Font → ℕ → List Char → ℚ

/-- Width contributed by one segment in `measureMixedText`: emoji segments
contribute `fontSize * Array.from(s.text).length`, other segments the
oracle width of the run at that font and size. -/
def segmentWidth (o : MeasureOracle) (fontSize : ℕ) (s : Segment) : ℚ :=
  if s.font = Font.Emoji then (fontSize : ℚ) * s.text.length
  else o s.font fontSize s.text

/-- `measureMixedText(ctx, text, fontSize)`: the `forEach` accumulation of
`totalWidth` over the segments of `text`. -/
def measureMixedText (isEmoji : Char → Bool) (o : MeasureOracle)
    (text : List Char) (fontSize : ℕ) : ℚ :=
  (segmentTextByFont isEmoji text).foldl
    (fun totalWidth s => totalWidth + segmentWidth o fontSize s) 0

/-- Hex string of a code point, as built by `getEmojiUrl`
(`c.codePointAt(0).toString(16)`). -/
def hexOfNat (n : ℕ) : String := String.mk (Nat.toDigits 16 n)

/-- `getEmojiUrl(emoji)`: deterministic CDN key derived from the emoji's
code point. (Per-`Char` iteration means each emoji here is one code
point.) -/
def getEmojiUrl (c : Char) : String :=
  "https://cdn.jsdelivr.net/gh/jdecked/twemoji@15.0.3/assets/72x72/"
    ++ hexOfNat c.toNat ++ ".png"

/-- One canvas operation emitted by `drawMixedText`: an emoji bitmap draw
(`ctx.drawImage(img, currentX, y + fontSize*0.1, fontSize, fontSize)`), a
stroked text run, or a filled text run. -/
inductive DrawOp where
  | image (url : String) (x y : ℚ) (w h : ℕ)
  | strokeText (text : List Char) (x y : ℚ) (font : Font) (size : ℕ) (style : String) (lineWidth : ℚ)
  | fillText (text : List Char) (x y : ℚ) (font : Font) (size : ℕ) (style : String)
deriving DecidableEq, Repr

/-- Inner emoji loop of `drawMixedText`: each emoji is fetched (through the
job-wide cache, transparent here because the fetch oracle is
deterministic) and drawn; on fetch failure the draw is skipped but
`currentX += fontSize` still happens. -/
def drawEmojiChars (fetch : String → Bool) (chars : List Char)
    (x y : ℚ) (fontSize : ℕ) : List DrawOp × ℚ :=
  match chars with
  | [] => ([], x)
  | c :: rest =>
    let url := getEmojiUrl c
    let ops := if fetch url
      then [DrawOp.image url x (y + (fontSize : ℚ) * (1/10)) fontSize fontSize]
      else []
    let next := drawEmojiChars fetch rest (x + fontSize) y fontSize
    (ops ++ next.1, next.2)

/-- Segment loop of `drawMixedText`: non-emoji runs are optionally stroked
then filled and advance the cursor by the run's measured width; emoji runs
go through `drawEmojiChars`. -/
def drawSegments (o : MeasureOracle) (fetch : String → Bool)
    (segs : List Segment) (x y : ℚ) (fontSize : ℕ)
    (fillStyle : String) (strokeStyle : Option String) (lineWidth : ℚ) :
    List DrawOp × ℚ :=
  match segs with
  | [] => ([], x)
  | s :: rest =>
    let step : List DrawOp × ℚ :=
      if s.font = Font.Emoji then
        drawEmojiChars fetch s.text x y fontSize
      else
        let strokeOps := match strokeStyle with
          | some st => if 0 < lineWidth
              then [DrawOp.strokeText s.text x y s.font fontSize st lineWidth]
              else []
          | none => []
        (strokeOps ++ [DrawOp.fillText s.text x y s.font fontSize fillStyle],
          x + o s.font fontSize s.text)
    let next := drawSegments o fetch rest step.2 y fontSize fillStyle strokeStyle lineWidth
    (step.1 ++ next.1, next.2)

/-- `drawMixedText(ctx, text, x, y, fontSize, fillStyle, strokeStyle,
lineWidth)`, modelled as the list of canvas operations it performs plus
the final cursor position. -/
def drawMixedText (isEmoji : Char → Bool) (o : MeasureOracle) (fetch : String → Bool)
    (text : List Char) (x y : ℚ) (fontSize : ℕ)
    (fillStyle : String) (strokeStyle : Option String) (lineWidth : ℚ) :
    List DrawOp × ℚ :=
  drawSegments o fetch (segmentTextByFont isEmoji text) x y fontSize fillStyle strokeStyle lineWidth

/-- Result of `fitTextToBox`: the chosen font size and the wrapped lines. -/
structure FitResult where
  fontSize : ℕ
  lines : List (List Char)
deriving DecidableEq, Repr

/-- Inner word loop of `fitTextToBox`: greedy wrap. `test` is
`currentLine ? currentLine + ' ' + word : word`; if it measures within the
box it becomes the current line, otherwise the current line (possibly
empty, matching the source) is pushed and the word starts a new line. -/
def wrapGo (m : List Char → ℚ) (boxWidth : ℚ) :
    List (List Char) → List (List Char) → List Char → List (List Char)
  | [], lines, cur => if cur.isEmpty then lines else lines ++ [cur]
  | w :: ws, lines, cur =>
    let test := if cur.isEmpty then w else cur ++ ' ' :: w
    if m test ≤ boxWidth then wrapGo m boxWidth ws lines test
    else wrapGo m boxWidth ws (lines ++ [cur]) w

/-- Greedy word wrap of `text` at one font size: split on spaces
(JS `text.split(' ')`, which keeps empty pieces) and run the word loop
with `measureMixedText` as the measure. -/
def wrapAtSize (isEmoji : Char → Bool) (o : MeasureOracle)
    (text : List Char) (boxWidth : ℚ) (fontSize : ℕ) : List (List Char) :=
  wrapGo (fun t => measureMixedText isEmoji o t fontSize) boxWidth
    (text.splitOn ' ') [] []

/-- The font size attempted by one loop pass fits iff its wrapped line
count is within `maxLines`. -/
def fitsAt (isEmoji : Char → Bool) (o : MeasureOracle)
    (text : List Char) (boxWidth : ℚ) (maxLines : ℕ) (fontSize : ℕ) : Prop :=
  (wrapAtSize isEmoji o text boxWidth fontSize).length ≤ maxLines

instance (isEmoji : Char → Bool) (o : MeasureOracle)
    (text : List Char) (boxWidth : ℚ) (maxLines fontSize : ℕ) :
    Decidable (fitsAt isEmoji o text boxWidth maxLines fontSize) := by
  unfold fitsAt; infer_instance

/-- Font sizes the `for (let fontSize = initial; fontSize >= 1; fontSize -= 2)`
loop attempts, in loop order. -/
def attemptedSizes : ℕ → List ℕ
  | 0 => []
  | 1 => [1]
  | fs + 2 => (fs + 2) :: attemptedSizes fs

/-- Size-descent loop of `fitTextToBox`: try the current size, else step
down by 2; when the size drops below 1, return the source's fallback
`{ fontSize: 10, lines: [text] }`. -/
def fitGo (isEmoji : Char → Bool) (o : MeasureOracle)
    (text : List Char) (boxWidth : ℚ) (maxLines : ℕ) : ℕ → FitResult
  | 0 => ⟨10, [text]⟩
  | 1 =>
    let lines := wrapAtSize isEmoji o text boxWidth 1
    if lines.length ≤ maxLines then ⟨1, lines⟩ else ⟨10, [text]⟩
  | fs + 2 =>
    let lines := wrapAtSize isEmoji o text boxWidth (fs + 2)
    if lines.length ≤ maxLines then ⟨fs + 2, lines⟩
    else fitGo isEmoji o text boxWidth maxLines fs

/-- `fitTextToBox(text, boxWidth, maxLines, initialFontSize)` from the
final pipeline iteration: find the largest stepped-down font size whose
greedy wrap fits in `maxLines`, with fallback `{ fontSize: 10, lines: [text] }`. -/
def fitTextToBox (isEmoji : Char → Bool) (o : MeasureOracle)
    (text : List Char) (boxWidth : ℚ) (maxLines : ℕ) (initialFontSize : ℕ) : FitResult :=
  fitGo isEmoji o text boxWidth maxLines initialFontSize

/-- The deployment's `LAYOUT_CONFIG` value object (final pipeline
iteration). -/
structure LayoutConfig where
  rankColors : List String
  titleFontSize : ℕ
  titleLineSpacing : ℕ
  titleBoxWidth : ℕ
  titleMaxLines : ℕ
  titleBoxTopPadding : ℕ
  titleBoxBottomPadding : ℕ
  rankFontSize : ℕ
  rankSpacing : ℕ
  rankPaddingY : ℕ
  rankNumX : ℕ
  rankTextX : ℕ
  rankBoxWidth : ℕ
  rankMaxLines : ℕ
  watermarkText : List Char
  watermarkFontSize : ℕ
  watermarkPadding : ℕ
  watermarkOpacity : ℚ
  textOutlineWidth : ℕ
deriving Repr

/-- The canonical `LAYOUT_CONFIG` constants. -/
def LAYOUT_CONFIG : LayoutConfig where
  rankColors := ["#FFD700", "#C0C0C0", "#CD7F32", "white", "white"]
  titleFontSize := 100
  titleLineSpacing := 30
  titleBoxWidth := 980
  titleMaxLines := 2
  titleBoxTopPadding := 30
  titleBoxBottomPadding := 40
  rankFontSize := 60
  rankSpacing := 140
  rankPaddingY := 80
  rankNumX := 45
  rankTextX := 125
  rankBoxWidth := 830
  rankMaxLines := 1
  watermarkText := "ranktop.net".toList
  watermarkFontSize := 48
  watermarkPadding := 20
  watermarkOpacity := 6/10
  textOutlineWidth := 12

/-- Title-block height computed from a title fit:
`textH = lines.length * fontSize + (lines.length - 1) * titleLineSpacing`
and `boxH = titleBoxTopPadding + textH + titleBoxBottomPadding`. Heights
are `ℤ` because the JS computation can go negative for a zero-line fit. -/
def titleBoxHeightOf (titleRes : FitResult) : ℤ :=
  (LAYOUT_CONFIG.titleBoxTopPadding : ℤ)
    + ((titleRes.lines.length : ℤ) * titleRes.fontSize
       + ((titleRes.lines.length : ℤ) - 1) * LAYOUT_CONFIG.titleLineSpacing)
    + LAYOUT_CONFIG.titleBoxBottomPadding

/-- `computeTitleBoxH(title)`: shared helper of the pre-edited pipeline —
fits the title and returns the fit together with the title box height. -/
def computeTitleBoxH (isEmoji : Char → Bool) (o : MeasureOracle)
    (title : List Char) : FitResult × ℤ :=
  let titleRes := fitTextToBox isEmoji o title LAYOUT_CONFIG.titleBoxWidth
    LAYOUT_CONFIG.titleMaxLines LAYOUT_CONFIG.titleFontSize
  (titleRes, titleBoxHeightOf titleRes)

/-- One rank row drawn by the cumulative overlay renderer: the rank's
0-based index, its vertical position
`rankPaddingY + boxH + idx * rankSpacing`, its tier color, and the fitted
label. -/
structure RankRow where
  idx : ℕ
  y : ℤ
  color : String
  labelFit : FitResult
deriving Repr

/-- Layout computed by the cumulative `createTextOverlayImage(title, ranks,
ranksToShow)` (rows for indices `ranks.length - ranksToShow + i`,
`i < ranksToShow`). -/
structure OverlayLayout where
  titleFit : FitResult
  boxH : ℤ
  rankRows : List RankRow
deriving Repr

/-- `createTextOverlayImage(title, ranks, ranksToShow)` (layout content):
fits the title, computes the title box height inline, and draws one row
per revealed rank at `rankPaddingY + boxH + idx * rankSpacing`. When
`ranksToShow > ranks.length` the source dereferences
`ranks[negative].split` and throws, modelled as `none`. -/
def createTextOverlayImage (isEmoji : Char → Bool) (o : MeasureOracle)
    (title : List Char) (ranks : List (List Char)) (ranksToShow : ℕ) :
    Option OverlayLayout :=
  if ranksToShow ≤ ranks.length then
    let titleRes := fitTextToBox isEmoji o title LAYOUT_CONFIG.titleBoxWidth
      LAYOUT_CONFIG.titleMaxLines LAYOUT_CONFIG.titleFontSize
    let boxH := titleBoxHeightOf titleRes
    some
      { titleFit := titleRes
        boxH := boxH
        rankRows := (List.range ranksToShow).map (fun i =>
          let idx := ranks.length - ranksToShow + i
          { idx := idx
            y := (LAYOUT_CONFIG.rankPaddingY : ℤ) + boxH + (idx : ℤ) * LAYOUT_CONFIG.rankSpacing
            color := (LAYOUT_CONFIG.rankColors.getD idx "white")
            labelFit := fitTextToBox isEmoji o (ranks.getD idx [])
              LAYOUT_CONFIG.rankBoxWidth LAYOUT_CONFIG.rankMaxLines
              LAYOUT_CONFIG.rankFontSize }) }
  else none

/-- Layout computed by `createBaseOverlayImage(title)`: title block and
watermark only (the watermark geometry is fixed by the config). -/
structure BaseOverlayLayout where
  titleFit : FitResult
  boxH : ℤ
deriving Repr

/-- `createBaseOverlayImage(title)`: rendered once per pre-edited job; its
title layout comes from the shared `computeTitleBoxH`. -/
def createBaseOverlayImage (isEmoji : Char → Bool) (o : MeasureOracle)
    (title : List Char) : BaseOverlayLayout :=
  let r := computeTitleBoxH isEmoji o title
  { titleFit := r.1, boxH := r.2 }

/-- Layout computed by `createRankOverlayImage(ranks, rankIndex, boxH)`:
one rank row positioned with the caller-supplied `boxH`. -/
structure RankOverlayLayout where
  y : ℤ
  color : String
  labelFit : FitResult
deriving Repr

/-- `createRankOverlayImage(ranks, rankIndex, boxH)`: draws exactly one
rank entry at `rankPaddingY + boxH + rankIndex * rankSpacing`; an
out-of-range index dereferences `undefined.split` in the source and
throws, modelled as `none`. -/
def createRankOverlayImage (isEmoji : Char → Bool) (o : MeasureOracle)
    (ranks : List (List Char)) (rankIndex : ℕ) (boxH : ℤ) :
    Option RankOverlayLayout :=
  if h : rankIndex < ranks.length then
    some
      { y := (LAYOUT_CONFIG.rankPaddingY : ℤ) + boxH + (rankIndex : ℤ) * LAYOUT_CONFIG.rankSpacing
        color := (LAYOUT_CONFIG.rankColors.getD rankIndex "white")
        labelFit := fitTextToBox isEmoji o (ranks.get ⟨rankIndex, h⟩)
          LAYOUT_CONFIG.rankBoxWidth LAYOUT_CONFIG.rankMaxLines
          LAYOUT_CONFIG.rankFontSize }
  else none

/-- One step of the auto-stitch pipeline (`processAutoStitch` loop body):
clip `clipIndex` gets overlay `createTextOverlayImage(title, ranks, i+1)`
composited for its whole duration (the `applyOverlay` ffmpeg filter has no
time gate), and the step order is the concat order. -/
structure AutoStitchStep where
  clipIndex : ℕ
  overlay : Option OverlayLayout
deriving Repr

/-- The auto-stitch composition plan: for each clip `i` (in order), overlay
`createTextOverlayImage(title, ranks, i + 1)`; processed clips are written
into the concat list in this same order. -/
def autoStitchPlan (isEmoji : Char → Bool) (o : MeasureOracle)
    (title : List Char) (ranks : List (List Char)) (numClips : ℕ) :
    List AutoStitchStep :=
  (List.range numClips).map (fun i =>
    { clipIndex := i
      overlay := createTextOverlayImage isEmoji o title ranks (i + 1) })

/-- One rank-overlay step of the pre-edited plan: rank `rankIndex`'s
overlay image, composited with
`enable='between(t, winStart, winEnd)'` on top of the running result. -/
structure RankStep where
  rankIndex : ℕ
  overlay : Option RankOverlayLayout
  winStart : ℚ
  winEnd : ℚ
deriving Repr

/-- The pre-edited (timed) composition plan built by `processPreEdited`. -/
structure PreEditedPlan where
  baseWinStart : ℚ
  baseWinEnd : ℚ
  baseOverlay : BaseOverlayLayout
  steps : List RankStep
deriving Repr

/-- Pure composition content of `processPreEdited`: sort the timestamps
ascending, clamp the base window end to `max 0 (endTime - 0.2)`, and for
each `i < ranks.length` build the overlay for `rankIndex =
ranks.length - 1 - i` enabled from `sortedTimestamps[i]?.time ?? 0` to
`endTime`. Steps are listed in filter-chain order (each composited on the
previous result). -/
def preEditedPlan (isEmoji : Char → Bool) (o : MeasureOracle)
    (title : List Char) (ranks : List (List Char))
    (timestamps : List ℚ) (endTime : ℚ) : PreEditedPlan :=
  let sortedTimestamps := timestamps.insertionSort (· ≤ ·)
  let boxH := (computeTitleBoxH isEmoji o title).2
  let titleEnd := max 0 (endTime - 2/10)
  { baseWinStart := 0
    baseWinEnd := titleEnd
    baseOverlay := createBaseOverlayImage isEmoji o title
    steps := (List.range ranks.length).map (fun i =>
      let rankIndex := ranks.length - 1 - i
      { rankIndex := rankIndex
        overlay := createRankOverlayImage isEmoji o ranks rankIndex boxH
        winStart := (sortedTimestamps.get? i).getD 0
        winEnd := endTime }) }

/-- The fields of the `processVideos` request body that the pre-edited
route inspects, with absent fields as `none`. -/
structure PreEditedRequest where
  filePath : Option String
  postId : Option String
  title : List Char
  ranks : List (List Char)
  timestamps : Option (List ℚ)
  endTime : ℚ
deriving Repr

/-- JS truthiness of an optional string field (absent or empty is falsy). -/
def strTruthy : Option String → Bool
  | none => false
  | some s => !s.isEmpty

/-- The `videoMode === 'pre-edited'` guard in `processVideos`:
`!filePath || !postId || !timestamps || !Array.isArray(timestamps) ||
timestamps.length === 0` rejects the request with a 400. -/
def preEditedRequestValid (req : PreEditedRequest) : Bool :=
  strTruthy req.filePath && strTruthy req.postId &&
    (match req.timestamps with
     | none => false
     | some ts => !ts.isEmpty)

/-- Routing of a pre-edited job: a request failing the guard is answered
with the 400 error before any download or render work; otherwise
`processPreEdited` runs, whose download/render/transcode work is driven by
the returned composition plan. -/
def routePreEdited (isEmoji : Char → Bool) (o : MeasureOracle)
    (req : PreEditedRequest) : Except String PreEditedPlan :=
  if preEditedRequestValid req then
    Except.ok (preEditedPlan isEmoji o req.title req.ranks
      (req.timestamps.getD []) req.endTime)
  else
    Except.error "Missing filePath, postId, or timestamps"

/-- True iff the route rejected the request (no work attempted). -/
def isRejected : Except String PreEditedPlan → Bool
  | Except.error _ => true
  | Except.ok _ => false

/-- Predicate keeping the draw operations that survive a given fetch
oracle: text operations always, emoji image operations when their URL
fetches. -/
def keepOp (fetch : String → Bool) : DrawOp → Bool
  | DrawOp.image url _ _ _ _ => fetch url
  | DrawOp.strokeText _ _ _ _ _ _ _ => true
  | DrawOp.fillText _ _ _ _ _ _ => true

/-- Classifier for test inputs containing no pictographic characters. -/
def noEmoji : Char → Bool := fun _ => false

/-- Test glyph oracle assigning every character the same width `w`. -/
def constWidthOracle (w : ℚ) : MeasureOracle := fun _ _ t => (t.length : ℚ) * w

/-- Test glyph oracle: every character one pixel wide at every size. -/
def unitOracle : MeasureOracle := constWidthOracle 1

/-- Test glyph oracle: every character a hundred pixels wide, so nothing
fits a narrow box. -/
def wideOracle : MeasureOracle := constWidthOracle 100

/-- Concrete pre-edited request with one timestamp mark and `endTime = 0`. -/
def reqEndTimeZero : PreEditedRequest where
  filePath := some "s/pre_source.mp4"
  postId := some "post1"
  title := ['t']
  ranks := [['a']]
  timestamps := some [2]
  endTime := 0

/-- Concrete pre-edited request whose timestamp list is empty. -/
def reqEmptyMarks : PreEditedRequest where
  filePath := some "s/pre_source.mp4"
  postId := some "post1"
  title := ['t']
  ranks := [['a']]
  timestamps := some []
  endTime := 10

/- ### Helper lemmas -/

theorem segmentGo_join (e : Char → Bool) :
    ∀ (l t : List Char) (f : Font),
      ((segmentGo e ⟨t, f⟩ l).map Segment.text).flatten = t ++ l := by
  intro l
  induction l with
  | nil =>
    intro t f
    cases t <;> simp [segmentGo]
  | cons c rest ih =>
    intro t f
    cases t with
    | nil =>
      simpa [segmentGo] using ih [c] (getFontForChar e c)
    | cons a t' =>
      by_cases hf : f = getFontForChar e c
      · simpa [segmentGo, hf] using ih ((a :: t') ++ [c]) (getFontForChar e c)
      · simpa [segmentGo, hf] using ih [c] (getFontForChar e c)

theorem segmentGo_head_font (e : Char → Bool) :
    ∀ (l t : List Char) (f : Font), t ≠ [] →
      ∃ s rest, segmentGo e ⟨t, f⟩ l = s :: rest ∧ s.font = f := by
  intro l
  induction l with
  | nil =>
    intro t f ht
    refine ⟨⟨t, f⟩, [], ?_, rfl⟩
    simp [segmentGo, ht]
  | cons c rest ih =>
    intro t f ht
    cases t with
    | nil => exact absurd rfl ht
    | cons a t' =>
      by_cases hf : f = getFontForChar e c
      · obtain ⟨s, tail, heq, hfont⟩ := ih ((a :: t') ++ [c]) f (by simp)
        refine ⟨s, tail, ?_, hfont⟩
        simpa [segmentGo, hf] using heq
      · refine ⟨⟨a :: t', f⟩, segmentGo e ⟨[c], getFontForChar e c⟩ rest, ?_, rfl⟩
        simp [segmentGo, hf]

theorem segmentGo_chain (e : Char → Bool) :
    ∀ (l t : List Char) (f : Font), t ≠ [] →
      (segmentGo e ⟨t, f⟩ l).Chain' (fun a b => a.font ≠ b.font) := by
  intro l
  induction l with
  | nil =>
    intro t f ht
    simp [segmentGo, ht]
  | cons c rest ih =>
    intro t f ht
    cases t with
    | nil => exact absurd rfl ht
    | cons a t' =>
      by_cases hf : f = getFontForChar e c
      · have := ih ((a :: t') ++ [c]) f (by simp)
        simpa [segmentGo, hf] using this
      · have hchain := ih [c] (getFontForChar e c) (by simp)
        obtain ⟨s, tail, heq, hfont⟩ :=
          segmentGo_head_font e rest [c] (getFontForChar e c) (by simp)
        have : List.Chain' (fun a b => a.font ≠ b.font)
            (⟨a :: t', f⟩ :: segmentGo e ⟨[c], getFontForChar e c⟩ rest) := by
          refine List.Chain'.cons' hchain ?_
          intro y hy
          rw [heq] at hy
          simp at hy
          subst hy
          simpa [hfont] using hf
        simpa [segmentGo, hf] using this

theorem segmentGo_segments_sound (e : Char → Bool) :
    ∀ (l t : List Char) (f : Font), t ≠ [] → (∀ c ∈ t, getFontForChar e c = f) →
      ∀ s ∈ segmentGo e ⟨t, f⟩ l,
        s.text ≠ [] ∧ ∀ c ∈ s.text, getFontForChar e c = s.font := by
  intro l
  induction l with
  | nil =>
    intro t f ht hall s hs
    simp [segmentGo, ht] at hs
    subst hs
    exact ⟨ht, hall⟩
  | cons c rest ih =>
    intro t f ht hall s hs
    cases t with
    | nil => exact absurd rfl ht
    | cons a t' =>
      by_cases hf : f = getFontForChar e c
      · have hall' : ∀ x ∈ (a :: t') ++ [c], getFontForChar e x = f := by
          intro x hx
          rcases List.mem_append.mp hx with hx | hx
          · exact hall x hx
          · simp at hx; subst hx; exact hf.symm
        refine ih ((a :: t') ++ [c]) f (by simp) hall' s ?_
        simpa [segmentGo, hf] using hs
      · rw [show segmentGo e ⟨a :: t', f⟩ (c :: rest)
            = ⟨a :: t', f⟩ :: segmentGo e ⟨[c], getFontForChar e c⟩ rest by
            simp [segmentGo, hf]] at hs
        rcases List.mem_cons.mp hs with hs | hs
        · subst hs; exact ⟨ht, hall⟩
        · exact ih [c] (getFontForChar e c) (by simp) (by simp) s hs

theorem segmentTextByFont_nil (e : Char → Bool) :
    segmentTextByFont e [] = [] := rfl

/- ### Claim theorems -/

/-- C6: concatenating the segment texts of `segmentTextByFont` in order
reproduces the input exactly; adjacent segments always carry different
font classes, every segment is a nonempty run of characters all
classified to the segment's class, and the empty string yields the empty
segment list. -/
theorem segmenter_round_trip_maximal_runs (e : Char → Bool) (s : List Char) :
    ((segmentTextByFont e s).map Segment.text).flatten = s ∧
    (segmentTextByFont e s).Chain' (fun a b => a.font ≠ b.font) ∧
    (∀ seg ∈ segmentTextByFont e s,
      seg.text ≠ [] ∧ ∀ c ∈ seg.text, getFontForChar e c = seg.font) ∧
    segmentTextByFont e [] = [] := by
  refine ⟨by simpa using segmentGo_join e s [] Font.Custom, ?_, ?_, rfl⟩
  · cases s with
    | nil => simp [segmentTextByFont, segmentGo]
    | cons c rest =>
      have : segmentTextByFont e (c :: rest)
          = segmentGo e ⟨[c], getFontForChar e c⟩ rest := by
        simp [segmentTextByFont, segmentGo]
      rw [this]
      exact segmentGo_chain e rest [c] (getFontForChar e c) (by simp)
  · cases s with
    | nil => simp [segmentTextByFont, segmentGo]
    | cons c rest =>
      have : segmentTextByFont e (c :: rest)
          = segmentGo e ⟨[c], getFontForChar e c⟩ rest := by
        simp [segmentTextByFont, segmentGo]
      rw [this]
      exact segmentGo_segments_sound e rest [c] (getFontForChar e c) (by simp) (by simp)

theorem foldl_add_eq_sum (f : Segment → ℚ) :
    ∀ (l : List Segment) (init : ℚ),
      l.foldl (fun acc s => acc + f s) init = init + (l.map f).sum := by
  intro l
  induction l with
  | nil => intro init; simp
  | cons s rest ih =>
    intro init
    simp [List.foldl_cons, ih (init + f s)]
    ring

/-- C7: the measured total width of a mixed string is the sum over its
segments of `fontSize × (number of emoji characters)` for emoji segments
and the glyph-oracle width of the segment's run at the segment's font for
the others (hence deterministic for a fixed oracle). -/
theorem measureMixedText_segment_sum (e : Char → Bool) (o : MeasureOracle)
    (text : List Char) (fontSize : ℕ) :
    measureMixedText e o text fontSize =
      ((segmentTextByFont e text).map (fun s =>
        if s.font = Font.Emoji then (fontSize : ℚ) * s.text.length
        else o s.font fontSize s.text)).sum := by
  unfold measureMixedText
  rw [foldl_add_eq_sum]
  simp only [zero_add]
  congr 1

theorem drawEmojiChars_filter (fetch : String → Bool) :
    ∀ (chars : List Char) (x y : ℚ) (fontSize : ℕ),
      drawEmojiChars fetch chars x y fontSize =
        (((drawEmojiChars (fun _ => true) chars x y fontSize).1).filter (keepOp fetch),
         (drawEmojiChars (fun _ => true) chars x y fontSize).2) := by
  intro chars
  induction chars with
  | nil => intro x y fontSize; simp [drawEmojiChars]
  | cons c rest ih =>
    intro x y fontSize
    simp only [drawEmojiChars, ih (x + fontSize) y fontSize, List.filter_append]
    by_cases h : fetch (getEmojiUrl c) <;> simp [h, keepOp]

theorem drawSegments_filter (o : MeasureOracle) (fetch : String → Bool)
    (fontSize : ℕ) (fillStyle : String) (strokeStyle : Option String) (lineWidth : ℚ) :
    ∀ (segs : List Segment) (x y : ℚ),
      drawSegments o fetch segs x y fontSize fillStyle strokeStyle lineWidth =
        (((drawSegments o (fun _ => true) segs x y fontSize fillStyle strokeStyle lineWidth).1).filter
            (keepOp fetch),
         (drawSegments o (fun _ => true) segs x y fontSize fillStyle strokeStyle lineWidth).2) := by
  intro segs
  induction segs with
  | nil => intro x y; simp [drawSegments]
  | cons s rest ih =>
    intro x y
    by_cases hs : s.font = Font.Emoji
    · simp only [drawSegments, hs, if_true, drawEmojiChars_filter fetch s.text x y fontSize]
      rw [ih]
      simp [List.filter_append]
    · simp only [drawSegments, hs, if_false]
      rw [ih]
      cases strokeStyle with
      | none => simp [List.filter_append, keepOp]
      | some st =>
        by_cases hl : 0 < lineWidth <;>
          simp [hl, List.filter_append, keepOp]

/-- C8: a fetch failure for one emoji glyph is local to that glyph. For
every fetch oracle, `drawMixedText` performs exactly the operations of the
all-fetches-succeed run minus the image draws whose URL fails (every text
run and every other emoji draws at its unchanged position), and the cursor
still ends at the same final position, since failed emojis still advance
it by the font size. -/
theorem drawMixedText_fetch_failure_local (e : Char → Bool) (o : MeasureOracle)
    (fetch : String → Bool) (text : List Char) (x y : ℚ) (fontSize : ℕ)
    (fillStyle : String) (strokeStyle : Option String) (lineWidth : ℚ) :
    (drawMixedText e o fetch text x y fontSize fillStyle strokeStyle lineWidth).1 =
      ((drawMixedText e o (fun _ => true) text x y fontSize fillStyle strokeStyle lineWidth).1).filter
        (keepOp fetch) ∧
    (drawMixedText e o fetch text x y fontSize fillStyle strokeStyle lineWidth).2 =
      (drawMixedText e o (fun _ => true) text x y fontSize fillStyle strokeStyle lineWidth).2 := by
  unfold drawMixedText
  rw [drawSegments_filter]
  exact ⟨rfl, rfl⟩

theorem mem_attemptedSizes (fs : ℕ) :
    ∀ s0, fs ∈ attemptedSizes s0 → 1 ≤ fs ∧ fs ≤ s0 := by
  intro s0
  induction s0 using Nat.strong_induction_on with
  | _ s0 ih =>
    match s0 with
    | 0 => intro h; simp [attemptedSizes] at h
    | 1 =>
      intro h
      simp [attemptedSizes] at h
      omega
    | n + 2 =>
      intro h
      simp only [attemptedSizes, List.mem_cons] at h
      rcases h with h | h
      · omega
      · have := ih n (by omega) h
        omega

theorem fitGo_eq_fallback (e : Char → Bool) (o : MeasureOracle)
    (text : List Char) (boxWidth : ℚ) (maxLines : ℕ) :
    ∀ s0, (∀ fs ∈ attemptedSizes s0, ¬ fitsAt e o text boxWidth maxLines fs) →
      fitGo e o text boxWidth maxLines s0 = ⟨10, [text]⟩ := by
  intro s0
  induction s0 using Nat.strong_induction_on with
  | _ s0 ih =>
    match s0 with
    | 0 => intro _; rfl
    | 1 =>
      intro h
      have h1 := h 1 (by simp [attemptedSizes])
      unfold fitsAt at h1
      simp only [fitGo]
      rw [if_neg h1]
    | n + 2 =>
      intro h
      have h1 := h (n + 2) (by simp [attemptedSizes])
      unfold fitsAt at h1
      simp only [fitGo]
      rw [if_neg h1]
      exact ih n (by omega) (fun fs hfs =>
        h fs (by simp only [attemptedSizes, List.mem_cons]; exact Or.inr hfs))

theorem fitGo_finds_largest (e : Char → Bool) (o : MeasureOracle)
    (text : List Char) (boxWidth : ℚ) (maxLines : ℕ) :
    ∀ s0 fs0, fs0 ∈ attemptedSizes s0 → fitsAt e o text boxWidth maxLines fs0 →
      (fitGo e o text boxWidth maxLines s0).fontSize ∈ attemptedSizes s0 ∧
      fitsAt e o text boxWidth maxLines (fitGo e o text boxWidth maxLines s0).fontSize ∧
      (fitGo e o text boxWidth maxLines s0).lines =
        wrapAtSize e o text boxWidth (fitGo e o text boxWidth maxLines s0).fontSize ∧
      ∀ fs ∈ attemptedSizes s0, fitsAt e o text boxWidth maxLines fs →
        fs ≤ (fitGo e o text boxWidth maxLines s0).fontSize := by
  intro s0
  induction s0 using Nat.strong_induction_on with
  | _ s0 ih =>
    match s0 with
    | 0 =>
      intro fs0 hmem _
      simp [attemptedSizes] at hmem
    | 1 =>
      intro fs0 hmem hfit
      simp [attemptedSizes] at hmem
      subst hmem
      unfold fitsAt at hfit
      simp only [fitGo]
      rw [if_pos hfit]
      refine ⟨by simp [attemptedSizes], hfit, rfl, ?_⟩
      intro fs hfs _
      simp [attemptedSizes] at hfs
      exact hfs ▸ le_rfl
    | n + 2 =>
      intro fs0 hmem hfit
      by_cases htop : fitsAt e o text boxWidth maxLines (n + 2)
      · have htop' := htop
        unfold fitsAt at htop'
        simp only [fitGo]
        rw [if_pos htop']
        refine ⟨by simp [attemptedSizes], htop, rfl, ?_⟩
        intro fs hfs _
        exact (mem_attemptedSizes fs (n + 2) hfs).2
      · have htop' := htop
        unfold fitsAt at htop'
        simp only [fitGo]
        rw [if_neg htop']
        have hmem' : fs0 ∈ attemptedSizes n := by
          simp only [attemptedSizes, List.mem_cons] at hmem
          rcases hmem with h | h
          · exact absurd (h ▸ hfit) htop
          · exact h
        obtain ⟨hm, hf, hl, hmax⟩ := ih n (by omega) fs0 hmem' hfit
        refine ⟨by simp only [attemptedSizes, List.mem_cons]; exact Or.inr hm, hf, hl, ?_⟩
        intro fs hfs hfsfit
        simp only [attemptedSizes, List.mem_cons] at hfs
        rcases hfs with h | h
        · exact absurd (h ▸ hfsfit) htop
        · exact hmax fs h hfsfit

/-- Every class the classifier assigns under `noEmoji` is a non-emoji
class. -/
theorem getFontForChar_noEmoji_ne (c : Char) :
    getFontForChar noEmoji c ≠ Font.Emoji := by
  unfold getFontForChar noEmoji
  by_cases h : inWideRanges c <;> simp [h]

theorem measure_constWidthOracle (w : ℚ) (t : List Char) (fs : ℕ) :
    measureMixedText noEmoji (constWidthOracle w) t fs = (t.length : ℚ) * w := by
  unfold measureMixedText
  rw [foldl_add_eq_sum]
  simp only [zero_add]
  have hfonts : ∀ s ∈ segmentTextByFont noEmoji t, s.font ≠ Font.Emoji := by
    intro s hs
    cases t with
    | nil => simp [segmentTextByFont, segmentGo] at hs
    | cons c rest =>
      have hmem : s ∈ segmentGo noEmoji ⟨[c], getFontForChar noEmoji c⟩ rest := by
        simpa [segmentTextByFont, segmentGo] using hs
      obtain ⟨hne, hall⟩ := segmentGo_segments_sound noEmoji rest [c]
        (getFontForChar noEmoji c) (by simp) (by simp) s hmem
      obtain ⟨c0, hc0⟩ := List.exists_mem_of_ne_nil s.text hne
      rw [← hall c0 hc0]
      exact getFontForChar_noEmoji_ne c0
  have hmap : (segmentTextByFont noEmoji t).map (segmentWidth (constWidthOracle w) fs)
      = (segmentTextByFont noEmoji t).map (fun s => (s.text.length : ℚ) * w) := by
    apply List.map_congr_left
    intro s hs
    unfold segmentWidth constWidthOracle
    rw [if_neg (hfonts s hs)]
  rw [hmap]
  have hlen : ((segmentTextByFont noEmoji t).map (fun s => s.text.length)).sum
      = t.length := by
    have hj := segmentGo_join noEmoji t [] Font.Custom
    have : (((segmentTextByFont noEmoji t).map Segment.text).flatten).length = t.length := by
      rw [show ((segmentTextByFont noEmoji t).map Segment.text).flatten = [] ++ t from hj]
      simp
    simpa [List.length_flatten, List.map_map, Function.comp] using this
  have hgen : ∀ ns : List ℕ, (ns.map (fun (n : ℕ) => (n : ℚ) * w)).sum = (ns.sum : ℚ) * w := by
    intro ns
    induction ns with
    | nil => simp
    | cons n rest ih =>
      simp only [List.map_cons, List.sum_cons, ih]
      push_cast
      ring
  have h2 := hgen ((segmentTextByFont noEmoji t).map (fun s => s.text.length))
  rw [List.map_map, hlen] at h2
  exact h2

theorem wrap_singleton_wide (fs : ℕ) :
    wrapAtSize noEmoji wideOracle ['a'] 10 fs = [[], ['a']] := by
  unfold wrapAtSize
  rw [show (['a'] : List Char).splitOn ' ' = [['a']] from by decide]
  have hno : ¬ (measureMixedText noEmoji wideOracle ['a'] fs ≤ (10 : ℚ)) := by
    rw [show wideOracle = constWidthOracle 100 from rfl, measure_constWidthOracle]
    norm_num
  rw [wrapGo]
  simp only [List.isEmpty_nil, if_true]
  rw [if_neg hno, wrapGo]
  rfl

theorem wrap_singleton_unit (fs : ℕ) :
    wrapAtSize noEmoji unitOracle ['a'] 10 fs = [['a']] := by
  unfold wrapAtSize
  rw [show (['a'] : List Char).splitOn ' ' = [['a']] from by decide]
  have hyes : measureMixedText noEmoji unitOracle ['a'] fs ≤ (10 : ℚ) := by
    rw [show unitOracle = constWidthOracle 1 from rfl, measure_constWidthOracle]
    norm_num
  rw [wrapGo]
  simp only [List.isEmpty_nil, if_true]
  rw [if_pos hyes, wrapGo]
  rfl

theorem noFit_wide :
    ∀ fs ∈ attemptedSizes 4, ¬ fitsAt noEmoji wideOracle ['a'] 10 1 fs := by
  intro fs _
  unfold fitsAt
  rw [wrap_singleton_wide]
  decide

theorem fit_wide_eval : fitTextToBox noEmoji wideOracle ['a'] 10 1 4 = ⟨10, [['a']]⟩ :=
  fitGo_eq_fallback noEmoji wideOracle ['a'] 10 1 4 noFit_wide

theorem fit_unit_fits : fitsAt noEmoji unitOracle ['a'] 10 1 4 := by
  unfold fitsAt
  rw [wrap_singleton_unit]
  decide

theorem measure_unit_floor_le :
    ∀ c ∈ (['a'] : List Char),
      measureMixedText noEmoji unitOracle [c]
        ((attemptedSizes 4).getLast?.getD 1) ≤ (10 : ℚ) := by
  intro c _
  rw [show unitOracle = constWidthOracle 1 from rfl, measure_constWidthOracle]
  norm_num

/-- C4 counterexample: an input on which no attempted size fits, whose
attempted sizes are `[4, 2]` (smallest attempted size 2), yet
`fitTextToBox` returns font size 10 — not the smallest attempted size
paired with the whole text. -/
theorem boxFitter_fallback_not_smallest_attempted :
    (∀ fs ∈ attemptedSizes 4, ¬ fitsAt noEmoji wideOracle ['a'] 10 1 fs) ∧
    attemptedSizes 4 = [4, 2] ∧
    fitTextToBox noEmoji wideOracle ['a'] 10 1 4 ≠ ⟨2, [['a']]⟩ ∧
    (fitTextToBox noEmoji wideOracle ['a'] 10 1 4).fontSize = 10 := by
  refine ⟨noFit_wide, by decide, ?_, ?_⟩
  · rw [fit_wide_eval]; decide
  · rw [fit_wide_eval]

/-- C4 (amended): whenever no attempted font size makes the greedy wrap
fit within the line limit, `fitTextToBox` returns the fixed fallback font
size 10 (not the smallest attempted size) together with the whole text as
a single unwrapped line. -/
theorem boxFitter_fallback_fontSize_ten (e : Char → Bool) (o : MeasureOracle)
    (text : List Char) (boxWidth : ℚ) (maxLines s0 : ℕ)
    (h : ∀ fs ∈ attemptedSizes s0, ¬ fitsAt e o text boxWidth maxLines fs) :
    fitTextToBox e o text boxWidth maxLines s0 = ⟨10, [text]⟩ :=
  fitGo_eq_fallback e o text boxWidth maxLines s0 h

/-- Witness for the amended C4 at a concrete no-fit input. -/
theorem boxFitter_fallback_fontSize_ten_witness :
    (∀ fs ∈ attemptedSizes 4, ¬ fitsAt noEmoji wideOracle ['a'] 10 1 fs) ∧
    fitTextToBox noEmoji wideOracle ['a'] 10 1 4 = ⟨10, [['a']]⟩ :=
  ⟨noFit_wide, boxFitter_fallback_fontSize_ten noEmoji wideOracle ['a'] 10 1 4 noFit_wide⟩

/-- C5: for a positive starting size, a line limit of at least one, and a
box at least as wide as every single character of the text at the floor
font size, `fitTextToBox` either hits the documented no-fit fallback, or
returns a font size among the attempted descending sequence — hence
`≤ size` — whose greedy wrap is the returned line list with at most
`maxLines` lines, and that size is the largest attempted size that fits. -/
theorem boxFitter_largest_fitting_size (e : Char → Bool) (o : MeasureOracle)
    (text : List Char) (boxWidth : ℚ) (maxLines s0 : ℕ)
    (hm : 1 ≤ maxLines) (hs : 1 ≤ s0)
    (hW : ∀ c ∈ text,
      measureMixedText e o [c] ((attemptedSizes s0).getLast?.getD 1) ≤ boxWidth) :
    (∀ fs ∈ attemptedSizes s0, ¬ fitsAt e o text boxWidth maxLines fs) ∨
    ((fitTextToBox e o text boxWidth maxLines s0).fontSize ≤ s0 ∧
     (fitTextToBox e o text boxWidth maxLines s0).lines.length ≤ maxLines ∧
     (fitTextToBox e o text boxWidth maxLines s0).fontSize ∈ attemptedSizes s0 ∧
     fitsAt e o text boxWidth maxLines
       (fitTextToBox e o text boxWidth maxLines s0).fontSize ∧
     (fitTextToBox e o text boxWidth maxLines s0).lines =
       wrapAtSize e o text boxWidth
         (fitTextToBox e o text boxWidth maxLines s0).fontSize ∧
     ∀ fs ∈ attemptedSizes s0, fitsAt e o text boxWidth maxLines fs →
       fs ≤ (fitTextToBox e o text boxWidth maxLines s0).fontSize) := by
  by_cases hall : ∀ fs ∈ attemptedSizes s0, ¬ fitsAt e o text boxWidth maxLines fs
  · exact Or.inl hall
  · right
    push_neg at hall
    obtain ⟨fs0, hmem, hfit⟩ := hall
    obtain ⟨hm', hf, hl, hmax⟩ :=
      fitGo_finds_largest e o text boxWidth maxLines s0 fs0 hmem hfit
    have hle := (mem_attemptedSizes _ s0 hm').2
    refine ⟨hle, ?_, hm', hf, hl, hmax⟩
    have := hf
    unfold fitsAt at this
    rw [show (fitTextToBox e o text boxWidth maxLines s0).lines
        = wrapAtSize e o text boxWidth
            (fitTextToBox e o text boxWidth maxLines s0).fontSize from hl]
    exact this

/-- Witness for C5 at a concrete input where a size fits. -/
theorem boxFitter_largest_fitting_size_witness :
    ((1 : ℕ) ≤ 1 ∧ (1 : ℕ) ≤ 4 ∧
      (∀ c ∈ ['a'],
        measureMixedText noEmoji unitOracle [c]
          ((attemptedSizes 4).getLast?.getD 1) ≤ (10 : ℚ))) ∧
    ((∀ fs ∈ attemptedSizes 4, ¬ fitsAt noEmoji unitOracle ['a'] 10 1 fs) ∨
     ((fitTextToBox noEmoji unitOracle ['a'] 10 1 4).fontSize ≤ 4 ∧
      (fitTextToBox noEmoji unitOracle ['a'] 10 1 4).lines.length ≤ 1 ∧
      (fitTextToBox noEmoji unitOracle ['a'] 10 1 4).fontSize ∈ attemptedSizes 4 ∧
      fitsAt noEmoji unitOracle ['a'] 10 1
        (fitTextToBox noEmoji unitOracle ['a'] 10 1 4).fontSize ∧
      (fitTextToBox noEmoji unitOracle ['a'] 10 1 4).lines =
        wrapAtSize noEmoji unitOracle ['a'] 10
          (fitTextToBox noEmoji unitOracle ['a'] 10 1 4).fontSize ∧
      ∀ fs ∈ attemptedSizes 4, fitsAt noEmoji unitOracle ['a'] 10 1 fs →
        fs ≤ (fitTextToBox noEmoji unitOracle ['a'] 10 1 4).fontSize)) :=
  ⟨⟨le_refl 1, by decide, measure_unit_floor_le⟩,
    boxFitter_largest_fitting_size noEmoji unitOracle ['a'] 10 1 4
      (le_refl 1) (by decide) measure_unit_floor_le⟩

theorem preEditedPlan_steps_get (e : Char → Bool) (o : MeasureOracle)
    (title : List Char) (ranks : List (List Char)) (ts : List ℚ) (endTime : ℚ)
    (i : ℕ) (hi : i < ranks.length) :
    (preEditedPlan e o title ranks ts endTime).steps.get? i =
      some { rankIndex := ranks.length - 1 - i
             overlay := createRankOverlayImage e o ranks (ranks.length - 1 - i)
               (computeTitleBoxH e o title).2
             winStart := ((ts.insertionSort (· ≤ ·)).get? i).getD 0
             winEnd := endTime } := by
  simp only [preEditedPlan]
  rw [List.get?_map, List.get?_range hi]
  rfl

theorem preEditedPlan_steps_length (e : Char → Bool) (o : MeasureOracle)
    (title : List Char) (ranks : List (List Char)) (ts : List ℚ) (endTime : ℚ) :
    (preEditedPlan e o title ranks ts endTime).steps.length = ranks.length := by
  simp [preEditedPlan]

/-- C1: in the timed plan with as many ascending marks as rank entries,
marks are assigned to ranks in reverse index order — step `i` (built from
the `i`-th earliest mark) reveals rank index `length - 1 - i` with
visibility window from that mark's time to `endTime` — and the base
title+watermark overlay is enabled on the window from 0 to
`endTime - 0.2`. Instantiating with three ranks, marks `[2, 5, 8]` and
`endTime = 10` gives windows `[2,10)`, `[5,10)`, `[8,10)` for rank
indices 2, 1, 0 and base window `[0, 9.8)`. -/
theorem preEdited_timed_plan_windows (e : Char → Bool) (o : MeasureOracle)
    (title : List Char) (ranks : List (List Char))
    (timestamps : List ℚ) (endTime : ℚ)
    (hlen : timestamps.length = ranks.length)
    (hsorted : timestamps.Sorted (· ≤ ·))
    (hend : (2/10 : ℚ) ≤ endTime) :
    (preEditedPlan e o title ranks timestamps endTime).baseWinStart = 0 ∧
    (preEditedPlan e o title ranks timestamps endTime).baseWinEnd = endTime - 2/10 ∧
    (preEditedPlan e o title ranks timestamps endTime).steps.length = ranks.length ∧
    ∀ i, i < ranks.length →
      ∃ st, (preEditedPlan e o title ranks timestamps endTime).steps.get? i = some st ∧
        st.rankIndex = ranks.length - 1 - i ∧
        st.winStart = (timestamps.get? i).getD 0 ∧
        st.winEnd = endTime := by
  refine ⟨rfl, ?_, preEditedPlan_steps_length e o title ranks timestamps endTime, ?_⟩
  · show max 0 (endTime - 2/10) = endTime - 2/10
    exact max_eq_right (by linarith)
  · intro i hi
    refine ⟨_, preEditedPlan_steps_get e o title ranks timestamps endTime i hi, rfl, ?_, rfl⟩
    simp only
    rw [hsorted.insertionSort_eq]

/-- Witness for C1 at the spec's concrete instance: three ranks, marks
`[2, 5, 8]`, `endTime = 10`. -/
theorem preEdited_timed_plan_windows_witness :
    (([2, 5, 8] : List ℚ).length = ([['a'], ['b'], ['c']] : List (List Char)).length ∧
      ([2, 5, 8] : List ℚ).Sorted (· ≤ ·) ∧ (2/10 : ℚ) ≤ 10) ∧
    ((preEditedPlan noEmoji unitOracle ['t'] [['a'], ['b'], ['c']] [2, 5, 8] 10).baseWinStart = 0 ∧
     (preEditedPlan noEmoji unitOracle ['t'] [['a'], ['b'], ['c']] [2, 5, 8] 10).baseWinEnd = 10 - 2/10 ∧
     (preEditedPlan noEmoji unitOracle ['t'] [['a'], ['b'], ['c']] [2, 5, 8] 10).steps.length = 3 ∧
     ∀ i, i < ([['a'], ['b'], ['c']] : List (List Char)).length →
       ∃ st, (preEditedPlan noEmoji unitOracle ['t'] [['a'], ['b'], ['c']] [2, 5, 8] 10).steps.get? i
           = some st ∧
         st.rankIndex = ([['a'], ['b'], ['c']] : List (List Char)).length - 1 - i ∧
         st.winStart = (([2, 5, 8] : List ℚ).get? i).getD 0 ∧
         st.winEnd = 10) :=
  ⟨⟨rfl, by norm_num [List.sorted_cons], by norm_num⟩,
    preEdited_timed_plan_windows noEmoji unitOracle ['t'] [['a'], ['b'], ['c']]
      [2, 5, 8] 10 rfl (by norm_num [List.sorted_cons]) (by norm_num)⟩

/-- C10: the timed plan renders exactly one rank overlay per RankList
entry — the step list has one step per rank, step `i` carrying the
single-rank overlay for index `length - 1 - i` — regardless of how many
timestamp marks were supplied, and any step whose timestamp slot has no
mark gets visibility start 0 (visible from the beginning until
`endTime`). -/
theorem preEdited_overlay_per_rank_default_start (e : Char → Bool) (o : MeasureOracle)
    (title : List Char) (ranks : List (List Char))
    (timestamps : List ℚ) (endTime : ℚ) :
    (preEditedPlan e o title ranks timestamps endTime).steps.length = ranks.length ∧
    ∀ i, i < ranks.length →
      ∃ st, (preEditedPlan e o title ranks timestamps endTime).steps.get? i = some st ∧
        st.rankIndex = ranks.length - 1 - i ∧
        st.overlay = createRankOverlayImage e o ranks (ranks.length - 1 - i)
          (computeTitleBoxH e o title).2 ∧
        st.overlay.isSome = true ∧
        st.winEnd = endTime ∧
        (timestamps.length ≤ i → st.winStart = 0) := by
  refine ⟨preEditedPlan_steps_length e o title ranks timestamps endTime, ?_⟩
  intro i hi
  refine ⟨_, preEditedPlan_steps_get e o title ranks timestamps endTime i hi,
    rfl, rfl, ?_, rfl, ?_⟩
  · simp only
    rw [createRankOverlayImage, dif_pos (by omega : ranks.length - 1 - i < ranks.length)]
    rfl
  · intro hts
    simp only
    rw [List.get?_len_le (by rwa [List.length_insertionSort])]
    rfl

/-- C2: in the auto-stitch plan, step `i` (1-indexed) overlays onto clip
`i` the cumulative overlay revealing exactly the rank indices
`{length - i, ..., length - 1}` (`ranksToShow = i`, growing by one per
clip), and the steps — whose outputs are concatenated — are in the
original clip order. -/
theorem autoStitch_cumulative_reveal (e : Char → Bool) (o : MeasureOracle)
    (title : List Char) (ranks : List (List Char)) (numClips i : ℕ)
    (h1 : 1 ≤ i) (hN : i ≤ numClips) (hL : i ≤ ranks.length) :
    (autoStitchPlan e o title ranks numClips).map AutoStitchStep.clipIndex
      = List.range numClips ∧
    ((autoStitchPlan e o title ranks numClips).get? (i - 1)).map AutoStitchStep.clipIndex
      = some (i - 1) ∧
    (((autoStitchPlan e o title ranks numClips).get? (i - 1)).bind
        AutoStitchStep.overlay).map (fun ov => ov.rankRows.map RankRow.idx)
      = some (List.range' (ranks.length - i) i) := by
  constructor
  · simp only [autoStitchPlan, List.map_map]
    have hid : (AutoStitchStep.clipIndex ∘ fun j =>
        ({ clipIndex := j,
           overlay := createTextOverlayImage e o title ranks (j + 1) } : AutoStitchStep))
        = id := rfl
    rw [hid, List.map_id]
  · have hi : i - 1 < numClips := by omega
    have hsucc : i - 1 + 1 = i := by omega
    have hov : createTextOverlayImage e o title ranks i
        = some { titleFit := fitTextToBox e o title LAYOUT_CONFIG.titleBoxWidth
                   LAYOUT_CONFIG.titleMaxLines LAYOUT_CONFIG.titleFontSize
                 boxH := titleBoxHeightOf (fitTextToBox e o title LAYOUT_CONFIG.titleBoxWidth
                   LAYOUT_CONFIG.titleMaxLines LAYOUT_CONFIG.titleFontSize)
                 rankRows := (List.range i).map (fun j =>
                   let idx := ranks.length - i + j
                   { idx := idx
                     y := (LAYOUT_CONFIG.rankPaddingY : ℤ)
                       + titleBoxHeightOf (fitTextToBox e o title LAYOUT_CONFIG.titleBoxWidth
                           LAYOUT_CONFIG.titleMaxLines LAYOUT_CONFIG.titleFontSize)
                       + (idx : ℤ) * LAYOUT_CONFIG.rankSpacing
                     color := (LAYOUT_CONFIG.rankColors.getD idx "white")
                     labelFit := fitTextToBox e o (ranks.getD idx [])
                       LAYOUT_CONFIG.rankBoxWidth LAYOUT_CONFIG.rankMaxLines
                       LAYOUT_CONFIG.rankFontSize }) } := by
      rw [createTextOverlayImage, if_pos hL]
    have hget : (autoStitchPlan e o title ranks numClips).get? (i - 1)
        = some { clipIndex := i - 1,
                 overlay := createTextOverlayImage e o title ranks (i - 1 + 1) } := by
      simp only [autoStitchPlan]
      rw [List.get?_map, List.get?_range hi]
      rfl
    rw [hget, hsucc, hov]
    refine ⟨rfl, ?_⟩
    show Option.map _ (some _) = _
    rw [Option.map_some']
    congr 1
    rw [List.map_map, List.range'_eq_map_range]
    apply List.map_congr_left
    intro j _
    rfl

/-- Witness for C2 with five clips and five ranks at step 1 (reveals only
index 4). -/
theorem autoStitch_cumulative_reveal_witness :
    ((1 : ℕ) ≤ 1 ∧ (1 : ℕ) ≤ 5 ∧
      (1 : ℕ) ≤ ([['a'], ['b'], ['c'], ['d'], ['e']] : List (List Char)).length) ∧
    ((autoStitchPlan noEmoji unitOracle ['t'] [['a'], ['b'], ['c'], ['d'], ['e']] 5).map
        AutoStitchStep.clipIndex = List.range 5 ∧
     ((autoStitchPlan noEmoji unitOracle ['t'] [['a'], ['b'], ['c'], ['d'], ['e']] 5).get? (1 - 1)).map
         AutoStitchStep.clipIndex = some (1 - 1) ∧
     (((autoStitchPlan noEmoji unitOracle ['t'] [['a'], ['b'], ['c'], ['d'], ['e']] 5).get? (1 - 1)).bind
         AutoStitchStep.overlay).map (fun ov => ov.rankRows.map RankRow.idx)
       = some (List.range'
           (([['a'], ['b'], ['c'], ['d'], ['e']] : List (List Char)).length - 1) 1)) :=
  ⟨⟨le_refl 1, by decide, by decide⟩,
    autoStitch_cumulative_reveal noEmoji unitOracle ['t'] [['a'], ['b'], ['c'], ['d'], ['e']]
      5 1 (le_refl 1) (by decide) (by decide)⟩

/-- C9: the cumulative overlay renderer and the pre-edited base/per-rank
renderers compute the same title-block height, so for every rank index
`k` the rank row of the full cumulative overlay sits at exactly the `y`
position of the single-rank overlay for `k` built on
`computeTitleBoxH`'s height. -/
theorem overlay_rank_row_alignment (e : Char → Bool) (o : MeasureOracle)
    (title : List Char) (ranks : List (List Char)) (k : ℕ) (hk : k < ranks.length) :
    (createTextOverlayImage e o title ranks ranks.length).map OverlayLayout.boxH
        = some (computeTitleBoxH e o title).2 ∧
    (createBaseOverlayImage e o title).boxH = (computeTitleBoxH e o title).2 ∧
    (createRankOverlayImage e o ranks k (computeTitleBoxH e o title).2).isSome = true ∧
    ((createTextOverlayImage e o title ranks ranks.length).bind
        (fun cum => cum.rankRows.get? k)).map RankRow.idx = some k ∧
    ((createTextOverlayImage e o title ranks ranks.length).bind
        (fun cum => cum.rankRows.get? k)).map RankRow.y
      = (createRankOverlayImage e o ranks k (computeTitleBoxH e o title).2).map
          RankOverlayLayout.y := by
  rw [createTextOverlayImage, if_pos (le_refl ranks.length),
    createRankOverlayImage, dif_pos hk]
  simp only [Option.map_some, Option.some_bind]
  refine ⟨rfl, rfl, rfl, ?_, ?_⟩
  · rw [List.get?_map, List.get?_range hk]
    show some (ranks.length - ranks.length + k) = some k
    rw [show ranks.length - ranks.length + k = k by omega]
  · rw [List.get?_map, List.get?_range hk]
    show some ((LAYOUT_CONFIG.rankPaddingY : ℤ)
        + titleBoxHeightOf (fitTextToBox e o title LAYOUT_CONFIG.titleBoxWidth
            LAYOUT_CONFIG.titleMaxLines LAYOUT_CONFIG.titleFontSize)
        + ((ranks.length - ranks.length + k : ℕ) : ℤ) * LAYOUT_CONFIG.rankSpacing)
      = some ((LAYOUT_CONFIG.rankPaddingY : ℤ) + (computeTitleBoxH e o title).2
        + (k : ℤ) * LAYOUT_CONFIG.rankSpacing)
    rw [show ranks.length - ranks.length + k = k by omega]
    rfl

/-- Witness for C9 at a concrete title and two-entry rank list. -/
theorem overlay_rank_row_alignment_witness :
    ((0 : ℕ) < ([['a'], ['b']] : List (List Char)).length) ∧
    ((createTextOverlayImage noEmoji unitOracle ['t'] [['a'], ['b']]
          ([['a'], ['b']] : List (List Char)).length).map OverlayLayout.boxH
        = some (computeTitleBoxH noEmoji unitOracle ['t']).2 ∧
     (createBaseOverlayImage noEmoji unitOracle ['t']).boxH
        = (computeTitleBoxH noEmoji unitOracle ['t']).2 ∧
     (createRankOverlayImage noEmoji unitOracle [['a'], ['b']] 0
          (computeTitleBoxH noEmoji unitOracle ['t']).2).isSome = true ∧
     ((createTextOverlayImage noEmoji unitOracle ['t'] [['a'], ['b']]
          ([['a'], ['b']] : List (List Char)).length).bind
        (fun cum => cum.rankRows.get? 0)).map RankRow.idx = some 0 ∧
     ((createTextOverlayImage noEmoji unitOracle ['t'] [['a'], ['b']]
          ([['a'], ['b']] : List (List Char)).length).bind
        (fun cum => cum.rankRows.get? 0)).map RankRow.y
       = (createRankOverlayImage noEmoji unitOracle [['a'], ['b']] 0
          (computeTitleBoxH noEmoji unitOracle ['t']).2).map RankOverlayLayout.y) :=
  ⟨by decide,
    overlay_rank_row_alignment noEmoji unitOracle ['t'] [['a'], ['b']] 0 (by decide)⟩

/-- C3 counterexample: a pre-edited request with a non-empty timestamp
list but `endTime = 0` passes the route's validation — `endTime ≤ 0` is
never checked — so the job proceeds to download/render instead of being
rejected. -/
theorem endTime_not_validated_counterexample :
    reqEndTimeZero.endTime ≤ 0 ∧
    preEditedRequestValid reqEndTimeZero = true ∧
    isRejected (routePreEdited noEmoji unitOracle reqEndTimeZero) = false := by
  refine ⟨le_refl 0, by decide, ?_⟩
  rw [routePreEdited, if_pos (by decide)]
  rfl

/-- C3 (amended): a timed-plan request whose timestamp set is empty (or
absent) fails the route's validation and is rejected before any download
or render work; an `endTime ≤ 0` request, however, is not rejected — the
plan is still built, with the base window end clamped to
`max 0 (endTime - 0.2)`. -/
theorem preEdited_empty_timestamps_rejected (e : Char → Bool) (o : MeasureOracle)
    (req : PreEditedRequest)
    (h : req.timestamps = some [] ∨ req.timestamps = none) :
    isRejected (routePreEdited e o req) = true := by
  have hvalid : preEditedRequestValid req = false := by
    unfold preEditedRequestValid
    rcases h with h | h <;> rw [h] <;> simp
  rw [routePreEdited, if_neg (by rw [hvalid]; exact Bool.false_ne_true)]
  rfl

/-- Witness for the amended C3 at a concrete empty-timestamp request. -/
theorem preEdited_empty_timestamps_rejected_witness :
    (reqEmptyMarks.timestamps = some [] ∨ reqEmptyMarks.timestamps = none) ∧
    isRejected (routePreEdited noEmoji unitOracle reqEmptyMarks) = true :=
  ⟨Or.inl rfl,
    preEdited_empty_timestamps_rejected noEmoji unitOracle reqEmptyMarks (Or.inl rfl)⟩

end RankTop
